import Mathlib

/-!
Shallow embedding of the core of the `wordle-solver` repository
(`src/words.rs`, `src/simulation.rs`, `src/stats.rs`, `src/game.rs`)
together with proofs about the constraint filter, the feedback oracle,
the candidate statistics and the self-play loop.

Modelling conventions:
* `Letter` (Rust: `struct Letter(u8)` holding a value in `[0, 26)`) is `Fin 26`.
* `LetterSet` (a 26-bit bitmask) is `Finset Letter`; `contains`/`insert`/
  `remove`/`intersect` become membership / `insert` / `erase` / `∩`.
* `LetterMap T` (a dense 26-entry array) is a function `Letter → T`.
* `Word` (`[Letter; 5]`) is `Fin 5 → Letter`.
* `u8`/`u32` counters are `Nat`; all subtractions appearing in the source are
  shown (or hypothesised, matching the claims) not to underflow, so truncated
  `Nat` subtraction and machine subtraction agree where it matters.
* the stateful loops (`Filter::restrict`, both passes of
  `Simulation::get_feedback`, `Simulation::run`) become explicit folds /
  recursions threading the mutated state.
-/

namespace Wordle

/-- A letter, `a`..`z`, encoded as its alphabet index (Rust `Letter(u8)`). -/
abbrev Letter : Type := Fin 26

/-- A 5-letter word, position-indexed (Rust `Word([Letter; 5])`). -/
abbrev Word : Type := Fin 5 → Letter

/-- The positions of a word, in the order every loop of the source visits
them (`0, 1, 2, 3, 4`). -/
def posList : List (Fin 5) := List.finRange 5

/-- Per-letter counter increment, `count[letter] += 1`. -/
def incr (m : Letter → Nat) (l : Letter) : Letter → Nat :=
  fun x => if x = l then m x + 1 else m x

/-- Per-letter counter decrement, `count[letter] -= 1`. -/
def decr (m : Letter → Nat) (l : Letter) : Letter → Nat :=
  fun x => if x = l then m x - 1 else m x

/-- Rust `Word::letter_count`: fold over the word's positions incrementing a
per-letter counter. -/
def Word.letterCount (w : Word) : Letter → Nat :=
  posList.foldl (fun m p => incr m (w p)) (fun _ => 0)

/-- Rust `enum Feedback { Black, Yellow, Green }`. -/
inductive Feedback : Type
  | black
  | yellow
  | green
deriving DecidableEq

/-- Rust `struct Filter`: a per-position allowed-letter set and a per-letter
minimum occurrence count. -/
@[ext]
structure Filter : Type where
  mask : Fin 5 → Finset Letter
  minCount : Letter → Nat

/-- Rust `Filter::default()`: all positions allow every letter, every
minimum count is zero. -/
def Filter.default : Filter :=
  { mask := fun _ => Finset.univ, minCount := fun _ => 0 }

/-- Rust `Word::matches`: every letter lies in its position's mask and every
letter's occurrence count reaches the filter's minimum. -/
def Word.matches (w : Word) (f : Filter) : Bool :=
  decide (∀ p, w p ∈ f.mask p) && decide (∀ l, f.minCount l ≤ w.letterCount l)

/-- The loop body of Rust `Filter::restrict`: processes the remaining
positions in order, threading the evolving mask array and the local
(same-round) `min_count` tally. -/
def restrictLoop (w : Word) (fb : Fin 5 → Feedback) :
    List (Fin 5) → (Fin 5 → Finset Letter) → (Letter → Nat) →
    (Fin 5 → Finset Letter) × (Letter → Nat)
  | [], mask, mc => (mask, mc)
  | p :: rest, mask, mc =>
    match fb p with
    | Feedback.green =>
        restrictLoop w fb rest (Function.update mask p {w p}) (incr mc (w p))
    | Feedback.yellow =>
        restrictLoop w fb rest (Function.update mask p ((mask p).erase (w p)))
          (incr mc (w p))
    | Feedback.black =>
        if 0 < mc (w p) then
          restrictLoop w fb rest (Function.update mask p ((mask p).erase (w p))) mc
        else
          restrictLoop w fb rest (fun q => (mask q).erase (w p)) mc

/-- Rust `Filter::restrict`: run the loop over all 5 positions starting from
a fresh local tally, then max-merge the local tally into `min_count`. -/
def Filter.restrict (f : Filter) (w : Word) (fb : Fin 5 → Feedback) : Filter :=
  { mask := (restrictLoop w fb posList f.mask (fun _ => 0)).1,
    minCount := fun l =>
      max (f.minCount l) ((restrictLoop w fb posList f.mask (fun _ => 0)).2 l) }

/-- Pass 1 of Rust `Simulation::get_feedback`, feedback component: Green
exactly where guess and secret agree, Black elsewhere. -/
def passOneFb (s g : Word) : Fin 5 → Feedback :=
  fun p => if g p = s p then Feedback.green else Feedback.black

/-- Pass 1 of Rust `Simulation::get_feedback`, counter component: walk the
positions decrementing the secret's letter budget at every Green. -/
def passOneM (s g : Word) : List (Fin 5) → (Letter → Nat) → (Letter → Nat)
  | [], m => m
  | p :: rest, m =>
      passOneM s g rest (if g p = s p then decr m (s p) else m)

/-- The secret's remaining per-letter budget after pass 1. -/
def missingAfterOne (s g : Word) : Letter → Nat :=
  passOneM s g posList s.letterCount

/-- Pass 2 of Rust `Simulation::get_feedback`: visit the positions in guess
order; a Black position whose letter still has budget becomes Yellow and
consumes one unit of budget. -/
def passTwo (g : Word) :
    List (Fin 5) → (Letter → Nat) → (Fin 5 → Feedback) →
    (Fin 5 → Feedback) × (Letter → Nat)
  | [], m, fb => (fb, m)
  | p :: rest, m, fb =>
      if fb p = Feedback.black ∧ 0 < m (g p) then
        passTwo g rest (decr m (g p)) (Function.update fb p Feedback.yellow)
      else
        passTwo g rest m fb

/-- Rust `Simulation::get_feedback`: the official two-pass colouring of a
guess `g` against the secret `s`. -/
def feedback (s g : Word) : Fin 5 → Feedback :=
  (passTwo g posList (missingAfterOne s g) (passOneFb s g)).1

/-- The all-Green feedback array, the solve loop's stopping pattern. -/
def green5 : Fin 5 → Feedback := fun _ => Feedback.green

section BasicLemmas

theorem incr_apply (m : Letter → Nat) (l x : Letter) :
    incr m l x = if x = l then m x + 1 else m x := rfl

theorem decr_apply (m : Letter → Nat) (l x : Letter) :
    decr m l x = if x = l then m x - 1 else m x := rfl

theorem posList_nodup : posList.Nodup := List.nodup_finRange 5

theorem mem_posList (p : Fin 5) : p ∈ posList := List.mem_finRange p

/-- Generic evaluation of an increment fold: the final counter is the
initial counter plus the number of processed positions carrying the
letter. -/
theorem foldl_incr_eq (w : Word) (l : List (Fin 5)) (m : Letter → Nat)
    (L : Letter) :
    (l.foldl (fun m p => incr m (w p)) m) L
      = m L + l.countP (fun p => decide (w p = L)) := by
  induction l generalizing m with
  | nil => simp
  | cons p rest ih =>
      simp only [List.foldl_cons, List.countP_cons, ih]
      by_cases h : w p = L
      · simp [incr, h, Nat.add_comm, Nat.add_assoc, Nat.add_left_comm]
      · simp [incr, h]
        intro h'
        exact absurd h'.symm h

theorem letterCount_eq_countP (w : Word) (L : Letter) :
    w.letterCount L = posList.countP (fun p => decide (w p = L)) := by
  simpa using foldl_incr_eq w posList (fun _ => 0) L

end BasicLemmas

section CountHelpers

/-- Splitting a count over a disjunction of two incompatible predicates. -/
theorem countP_or_split {α : Type} (l : List α) (p q : α → Bool)
    (h : ∀ a ∈ l, ¬(p a = true ∧ q a = true)) :
    l.countP (fun a => p a || q a) = l.countP p + l.countP q := by
  induction l with
  | nil => simp
  | cons b t ih =>
      have hb := h b (List.mem_cons_self b t)
      have ht : ∀ a ∈ t, ¬(p a = true ∧ q a = true) :=
        fun a ha => h a (List.mem_cons_of_mem b ha)
      rw [List.countP_cons, List.countP_cons, List.countP_cons, ih ht]
      cases hp : p b <;> cases hq : q b <;> simp [hp, hq] at hb ⊢ <;> omega

/-- If `p` implies `q` pointwise on a list and `q` does not count strictly
more often than `p`, the implication is in fact an equivalence on the
list. -/
theorem countP_le_rev {α : Type} (l : List α) (p q : α → Bool)
    (hpq : ∀ a ∈ l, p a = true → q a = true)
    (hle : l.countP q ≤ l.countP p) :
    ∀ a ∈ l, q a = true → p a = true := by
  induction l with
  | nil => simp
  | cons b t ih =>
      have hpq' : ∀ x ∈ t, p x = true → q x = true :=
        fun x hx => hpq x (List.mem_cons_of_mem b hx)
      have hmono : t.countP p ≤ t.countP q := List.countP_mono_left hpq'
      rw [List.countP_cons, List.countP_cons] at hle
      intro a ha hqa
      rcases List.mem_cons.1 ha with rfl | hat
      · by_contra hpa
        rw [hqa] at hle
        simp only [Bool.not_eq_true] at hpa
        rw [hpa] at hle
        simp at hle
        omega
      · refine ih hpq' ?_ a hat hqa
        by_cases hpb : p b = true
        · have hqb := hpq b (List.mem_cons_self b t) hpb
          rw [hpb, hqb] at hle
          omega
        · simp only [Bool.not_eq_true] at hpb
          rw [hpb] at hle
          cases hqb : q b <;> rw [hqb] at hle <;> simp at hle <;> omega

end CountHelpers

section FeedbackOracle

/-- Number of Green positions of the round that carry letter `L` (pass 1
consumes one unit of the secret's budget of `L` for each of them). -/
def greens (s g : Word) (L : Letter) : Nat :=
  posList.countP (fun p => decide (g p = s p ∧ g p = L))

theorem passOneFb_green_iff (s g : Word) (p : Fin 5) :
    passOneFb s g p = Feedback.green ↔ g p = s p := by
  unfold passOneFb
  by_cases h : g p = s p <;> simp [h]

theorem passOneFb_black_iff (s g : Word) (p : Fin 5) :
    passOneFb s g p = Feedback.black ↔ g p ≠ s p := by
  unfold passOneFb
  by_cases h : g p = s p <;> simp [h]

theorem passOneM_eq (s g : Word) (l : List (Fin 5)) :
    ∀ (m : Letter → Nat) (L : Letter),
      passOneM s g l m L
        = m L - l.countP (fun p => decide (g p = s p ∧ s p = L)) := by
  induction l with
  | nil => intro m L; simp [passOneM]
  | cons p rest ih =>
      intro m L
      rw [passOneM, ih, List.countP_cons]
      by_cases h1 : g p = s p
      · by_cases h2 : s p = L
        · simp only [decr, h1, h2, if_pos rfl, decide_eq_true_eq, if_true,
            and_self, if_pos]
          omega
        · have : ¬(L = s p) := fun h => h2 h.symm
          simp [decr, h1, h2, this]
      · simp [h1]

theorem missingAfterOne_eq (s g : Word) (L : Letter) :
    missingAfterOne s g L = s.letterCount L - greens s g L := by
  rw [missingAfterOne, passOneM_eq, greens]
  congr 1
  refine List.countP_congr fun p _ => ?_
  simp only [decide_eq_true_eq]
  constructor
  · rintro ⟨a, b⟩; exact ⟨a, a.trans b⟩
  · rintro ⟨a, b⟩; exact ⟨a, a.symm.trans b⟩

theorem greens_le (s g : Word) (L : Letter) :
    greens s g L ≤ s.letterCount L := by
  rw [greens, letterCount_eq_countP]
  refine List.countP_mono_left fun p _ h => ?_
  simp only [decide_eq_true_eq] at h ⊢
  exact h.1.symm.trans h.2

theorem passTwo_frozen (g : Word) (l : List (Fin 5)) :
    ∀ (m : Letter → Nat) (fb : Fin 5 → Feedback) (p : Fin 5), p ∉ l →
      (passTwo g l m fb).1 p = fb p := by
  induction l with
  | nil => intro m fb p _; rfl
  | cons q rest ih =>
      intro m fb p hp
      have hpq : p ≠ q := fun h => hp (h ▸ List.mem_cons_self q rest)
      have hpr : p ∉ rest := fun h => hp (List.mem_cons_of_mem q h)
      rw [passTwo]
      by_cases h : fb q = Feedback.black ∧ 0 < m (g q)
      · rw [if_pos h, ih _ _ _ hpr, Function.update_noteq hpq]
      · rw [if_neg h, ih _ _ _ hpr]

theorem passTwo_green_iff (g : Word) (l : List (Fin 5)) :
    ∀ (m : Letter → Nat) (fb : Fin 5 → Feedback) (p : Fin 5),
      (passTwo g l m fb).1 p = Feedback.green ↔ fb p = Feedback.green := by
  induction l with
  | nil => intro m fb p; exact Iff.rfl
  | cons q rest ih =>
      intro m fb p
      rw [passTwo]
      by_cases h : fb q = Feedback.black ∧ 0 < m (g q)
      · rw [if_pos h, ih]
        by_cases hpq : p = q
        · subst hpq
          rw [Function.update_same, h.1]
          simp
        · rw [Function.update_noteq hpq]
      · rw [if_neg h, ih]

theorem passTwo_append (g : Word) (l₁ l₂ : List (Fin 5)) :
    ∀ (m : Letter → Nat) (fb : Fin 5 → Feedback),
      passTwo g (l₁ ++ l₂) m fb
        = passTwo g l₂ (passTwo g l₁ m fb).2 (passTwo g l₁ m fb).1 := by
  induction l₁ with
  | nil => intro m fb; rfl
  | cons q rest ih =>
      intro m fb
      rw [List.cons_append, passTwo, passTwo]
      by_cases h : fb q = Feedback.black ∧ 0 < m (g q)
      · simp only [if_pos h]; exact ih _ _
      · simp only [if_neg h]; exact ih _ _

/-- Closed form for the remaining budget after pass 2 has processed a list
of positions on which the feedback is still the pass-1 colouring: each
non-Green processed occurrence of `L` consumed one unit while any budget
was left (truncated subtraction absorbs the starved occurrences). -/
theorem passTwo_m_eq (s g : Word) (l : List (Fin 5)) :
    ∀ (m : Letter → Nat) (fb : Fin 5 → Feedback), l.Nodup →
      (∀ p ∈ l, (fb p = Feedback.black ↔ g p ≠ s p)) →
      ∀ L, (passTwo g l m fb).2 L
        = m L - l.countP (fun p => decide (g p ≠ s p ∧ g p = L)) := by
  induction l with
  | nil => intro m fb _ _ L; simp [passTwo]
  | cons q rest ih =>
      intro m fb hnd hfb L
      have hqrest : q ∉ rest := (List.nodup_cons.1 hnd).1
      have hndr : rest.Nodup := (List.nodup_cons.1 hnd).2
      rw [passTwo, List.countP_cons]
      by_cases hgs : g q = s q
      · have hfbq : ¬(fb q = Feedback.black) := by
          rw [hfb q (List.mem_cons_self q rest)]
          simp [hgs]
        rw [if_neg (fun h => hfbq h.1), ih _ _ hndr
          (fun p hp => hfb p (List.mem_cons_of_mem q hp)),
          if_neg (fun hc => (of_decide_eq_true hc).1 hgs)]
        omega
      · have hfbq : fb q = Feedback.black :=
          (hfb q (List.mem_cons_self q rest)).2 hgs
        by_cases hpos : 0 < m (g q)
        · rw [if_pos ⟨hfbq, hpos⟩]
          have hfb' : ∀ p ∈ rest,
              (Function.update fb q Feedback.yellow p = Feedback.black
                ↔ g p ≠ s p) := by
            intro p hp
            have hpq : p ≠ q := fun h => hqrest (h ▸ hp)
            rw [Function.update_noteq hpq]
            exact hfb p (List.mem_cons_of_mem q hp)
          rw [ih _ _ hndr hfb']
          by_cases hL : g q = L
          · subst hL
            rw [if_pos (decide_eq_true ⟨hgs, rfl⟩)]
            have hd : decr m (g q) (g q) = m (g q) - 1 := by simp [decr]
            rw [hd]
            omega
          · rw [if_neg (fun hc => hL (of_decide_eq_true hc).2)]
            have hne : ¬(L = g q) := fun he => hL he.symm
            have hd : decr m (g q) L = m L := by simp [decr, hne]
            rw [hd]
            omega
        · rw [if_neg (fun h => hpos h.2), ih _ _ hndr
            (fun p hp => hfb p (List.mem_cons_of_mem q hp))]
          by_cases hL : g q = L
          · subst hL
            rw [if_pos (decide_eq_true ⟨hgs, rfl⟩)]
            have hm : m (g q) = 0 := Nat.eq_zero_of_not_pos hpos
            omega
          · rw [if_neg (fun hc => hL (of_decide_eq_true hc).2)]
            omega

/-- Exact accounting of pass 2: the final budget of `L` plus the number of
processed positions it turned from Black to Yellow equals the starting
budget. -/
theorem passTwo_count (g : Word) (l : List (Fin 5)) :
    ∀ (m : Letter → Nat) (fb : Fin 5 → Feedback), l.Nodup → ∀ L,
      (passTwo g l m fb).2 L
        + l.countP (fun p => decide (fb p = Feedback.black
            ∧ (passTwo g l m fb).1 p = Feedback.yellow ∧ g p = L))
        = m L := by
  induction l with
  | nil => intro m fb _ L; simp [passTwo]
  | cons q rest ih =>
      intro m fb hnd L
      have hqrest : q ∉ rest := (List.nodup_cons.1 hnd).1
      have hndr : rest.Nodup := (List.nodup_cons.1 hnd).2
      rw [passTwo, List.countP_cons]
      by_cases h : fb q = Feedback.black ∧ 0 < m (g q)
      · rw [if_pos h]
        have hfin : (passTwo g rest (decr m (g q))
            (Function.update fb q Feedback.yellow)).1 q = Feedback.yellow := by
          rw [passTwo_frozen g rest _ _ q hqrest, Function.update_same]
        have hcount : rest.countP (fun p => decide (fb p = Feedback.black
              ∧ (passTwo g rest (decr m (g q))
                  (Function.update fb q Feedback.yellow)).1 p = Feedback.yellow
              ∧ g p = L))
            = rest.countP (fun p => decide
              (Function.update fb q Feedback.yellow p = Feedback.black
              ∧ (passTwo g rest (decr m (g q))
                  (Function.update fb q Feedback.yellow)).1 p = Feedback.yellow
              ∧ g p = L)) := by
          refine List.countP_congr fun p hp => ?_
          have hpq : p ≠ q := fun he => hqrest (he ▸ hp)
          rw [Function.update_noteq hpq]
        rw [hcount]
        have hih := ih (decr m (g q)) (Function.update fb q Feedback.yellow) hndr L
        by_cases hL : g q = L
        · subst hL
          rw [if_pos (decide_eq_true ⟨h.1, hfin, rfl⟩)]
          have hm : decr m (g q) (g q) = m (g q) - 1 := by simp [decr]
          rw [hm] at hih
          omega
        · rw [if_neg (fun hc => hL (of_decide_eq_true hc).2.2)]
          have hne : ¬(L = g q) := fun he => hL he.symm
          have hm : decr m (g q) L = m L := by simp [decr, hne]
          rw [hm] at hih
          omega
      · rw [if_neg h]
        have hfin : (passTwo g rest m fb).1 q = fb q :=
          passTwo_frozen g rest _ _ q hqrest
        have hhead : ¬(fb q = Feedback.black
            ∧ (passTwo g rest m fb).1 q = Feedback.yellow ∧ g q = L) := by
          rintro ⟨hb, hy, -⟩
          rw [hfin, hb] at hy
          exact Feedback.noConfusion hy
        rw [if_neg (fun hc => hhead (of_decide_eq_true hc))]
        have hih := ih m fb hndr L
        omega

/-- The positions the loops visit strictly before `q`. -/
def preList (q : Fin 5) : List (Fin 5) := posList.filter (fun r => decide (r < q))

/-- The positions the loops visit strictly after `q`. -/
def sufList (q : Fin 5) : List (Fin 5) := posList.filter (fun r => decide (q < r))

theorem posList_split : ∀ q : Fin 5, posList = preList q ++ q :: sufList q := by
  decide

/-- Nodup and disjointness facts obtained from any decomposition of the
position list around a distinguished position. -/
theorem split_facts {pre suf : List (Fin 5)} {q : Fin 5}
    (hsplit : posList = pre ++ q :: suf) :
    pre.Nodup ∧ q ∉ pre ∧ q ∉ suf ∧ ∀ r ∈ pre, r ∉ q :: suf := by
  have h := posList_nodup
  rw [hsplit] at h
  obtain ⟨h1, h2, h3⟩ := List.nodup_append.1 h
  exact ⟨h1, fun hqpre => h3 hqpre (List.mem_cons_self q suf),
    (List.nodup_cons.1 h2).1, fun r hr hrq => h3 hr hrq⟩

theorem feedback_split (s g : Word) {pre suf : List (Fin 5)} {q : Fin 5}
    (hsplit : posList = pre ++ q :: suf) :
    feedback s g
      = (passTwo g (q :: suf)
          (passTwo g pre (missingAfterOne s g) (passOneFb s g)).2
          (passTwo g pre (missingAfterOne s g) (passOneFb s g)).1).1 := by
  rw [feedback, hsplit, passTwo_append]

theorem feedback_green_iff (s g : Word) (p : Fin 5) :
    feedback s g p = Feedback.green ↔ g p = s p := by
  rw [feedback, passTwo_green_iff, passOneFb_green_iff]

/-- On any position strictly before `q`, the final feedback agrees with the
state reached after pass 2 has processed the positions before `q`. -/
theorem feedback_eq_preRun (s g : Word) {pre suf : List (Fin 5)} {q : Fin 5}
    (hsplit : posList = pre ++ q :: suf) :
    ∀ r ∈ pre, feedback s g r
      = (passTwo g pre (missingAfterOne s g) (passOneFb s g)).1 r := by
  intro r hr
  obtain ⟨-, -, -, hdisj⟩ := split_facts hsplit
  rw [feedback_split s g hsplit]
  exact passTwo_frozen g (q :: suf) _ _ r (hdisj r hr)

/-- Closed-form criterion for Yellow at `q`: the guessed letter differs from
the secret's and, among the non-Green occurrences of that letter in guess
order, this one's rank is still within the secret's leftover budget. -/
theorem feedback_yellow_iff_split (s g : Word) {pre suf : List (Fin 5)}
    {q : Fin 5} (hsplit : posList = pre ++ q :: suf) :
    feedback s g q = Feedback.yellow
      ↔ g q ≠ s q ∧ pre.countP (fun r => decide (g r ≠ s r ∧ g r = g q))
          < s.letterCount (g q) - greens s g (g q) := by
  obtain ⟨hpreNd, hqpre, hqsuf, -⟩ := split_facts hsplit
  have hM : (passTwo g pre (missingAfterOne s g) (passOneFb s g)).2 (g q)
      = missingAfterOne s g (g q)
        - pre.countP (fun r => decide (g r ≠ s r ∧ g r = g q)) :=
    passTwo_m_eq s g pre _ _ hpreNd
      (fun p _ => passOneFb_black_iff s g p) (g q)
  have hFBq : (passTwo g pre (missingAfterOne s g) (passOneFb s g)).1 q
      = passOneFb s g q := passTwo_frozen g pre _ _ q hqpre
  rw [feedback_split s g hsplit, passTwo]
  by_cases hgs : g q = s q
  · have hgr : (passTwo g pre (missingAfterOne s g) (passOneFb s g)).1 q
        = Feedback.green := by
      rw [hFBq]; exact (passOneFb_green_iff s g q).2 hgs
    rw [if_neg (fun hc => by rw [hgr] at hc; exact Feedback.noConfusion hc.1)]
    rw [passTwo_frozen g suf _ _ q hqsuf, hgr]
    exact iff_of_false (fun hc => Feedback.noConfusion hc) (fun hc => hc.1 hgs)
  · have hbl : (passTwo g pre (missingAfterOne s g) (passOneFb s g)).1 q
        = Feedback.black := by
      rw [hFBq]; exact (passOneFb_black_iff s g q).2 hgs
    by_cases hpos :
        0 < (passTwo g pre (missingAfterOne s g) (passOneFb s g)).2 (g q)
    · rw [if_pos ⟨hbl, hpos⟩, passTwo_frozen g suf _ _ q hqsuf,
        Function.update_same]
      refine iff_of_true rfl ⟨hgs, ?_⟩
      rw [hM, missingAfterOne_eq] at hpos
      omega
    · rw [if_neg (fun hc => hpos hc.2), passTwo_frozen g suf _ _ q hqsuf, hbl]
      refine iff_of_false (fun hc => Feedback.noConfusion hc) ?_
      rintro ⟨-, hlt⟩
      rw [hM, missingAfterOne_eq] at hpos
      omega

/-- If `q` stays Black although no earlier position of the guess showed its
letter as Green or Yellow, then every occurrence of that letter in the
secret sits at a Green position of the guess. -/
theorem feedback_global_black (s g : Word) {pre suf : List (Fin 5)}
    {q : Fin 5} (hsplit : posList = pre ++ q :: suf)
    (hq : feedback s g q = Feedback.black)
    (hpre : ∀ r ∈ pre, g r = g q → feedback s g r = Feedback.black) :
    ∀ p, s p = g q → feedback s g p = Feedback.green ∧ g p = g q := by
  obtain ⟨hpreNd, hqpre, hqsuf, -⟩ := split_facts hsplit
  have hgs : g q ≠ s q := by
    intro he
    have := (feedback_green_iff s g q).2 he
    rw [hq] at this
    exact Feedback.noConfusion this
  have hFBq : (passTwo g pre (missingAfterOne s g) (passOneFb s g)).1 q
      = Feedback.black := by
    rw [passTwo_frozen g pre _ _ q hqpre]
    exact (passOneFb_black_iff s g q).2 hgs
  have hM0 : (passTwo g pre (missingAfterOne s g) (passOneFb s g)).2 (g q)
      = 0 := by
    by_contra hne
    have hpos := Nat.pos_of_ne_zero hne
    have hy : feedback s g q = Feedback.yellow := by
      rw [feedback_split s g hsplit, passTwo, if_pos ⟨hFBq, hpos⟩,
        passTwo_frozen g suf _ _ q hqsuf, Function.update_same]
    rw [hq] at hy
    exact Feedback.noConfusion hy
  have hcnt := passTwo_count g pre (missingAfterOne s g) (passOneFb s g)
    hpreNd (g q)
  have hzero : pre.countP (fun p => decide (passOneFb s g p = Feedback.black
      ∧ (passTwo g pre (missingAfterOne s g) (passOneFb s g)).1 p
          = Feedback.yellow ∧ g p = g q)) = 0 := by
    rw [List.countP_eq_zero]
    intro r hr hd
    obtain ⟨-, h2, h3⟩ := of_decide_eq_true hd
    have hb := hpre r hr h3
    rw [feedback_eq_preRun s g hsplit r hr] at hb
    rw [hb] at h2
    exact Feedback.noConfusion h2
  rw [hzero, hM0] at hcnt
  have hlcg : s.letterCount (g q) = greens s g (g q) := by
    have h1 := missingAfterOne_eq s g (g q)
    have h2 := greens_le s g (g q)
    omega
  have himp : ∀ p ∈ posList,
      decide (feedback s g p = Feedback.green ∧ g p = g q) = true →
      decide (s p = g q) = true := by
    intro p _ hd
    obtain ⟨h1, h2⟩ := of_decide_eq_true hd
    exact decide_eq_true (((feedback_green_iff s g p).1 h1).symm.trans h2)
  have hle : posList.countP (fun p => decide (s p = g q))
      ≤ posList.countP
        (fun p => decide (feedback s g p = Feedback.green ∧ g p = g q)) := by
    have e1 : posList.countP (fun p => decide (s p = g q))
        = s.letterCount (g q) := (letterCount_eq_countP s (g q)).symm
    have e2 : posList.countP
        (fun p => decide (feedback s g p = Feedback.green ∧ g p = g q))
        = greens s g (g q) := by
      rw [greens]
      refine List.countP_congr fun p _ => ?_
      simp only [decide_eq_true_eq]
      rw [feedback_green_iff]
    rw [e1, e2, hlcg]
  intro p hsp
  exact of_decide_eq_true
    (countP_le_rev posList _ _ himp hle p (mem_posList p) (decide_eq_true hsp))

/-- A round's Green and Yellow positions for a letter never outnumber the
letter's occurrences in the secret. -/
theorem feedback_nonblack_le (s g : Word) (L : Letter) :
    posList.countP
      (fun p => decide (feedback s g p ≠ Feedback.black ∧ g p = L))
      ≤ s.letterCount L := by
  have hsplitP : posList.countP
      (fun p => decide (feedback s g p ≠ Feedback.black ∧ g p = L))
      = posList.countP
          (fun p => decide (feedback s g p = Feedback.green ∧ g p = L))
        + posList.countP
          (fun p => decide (feedback s g p = Feedback.yellow ∧ g p = L)) := by
    rw [← countP_or_split posList _ _ (fun p _ => by
      rintro ⟨h1, h2⟩
      obtain ⟨hg, -⟩ := of_decide_eq_true h1
      obtain ⟨hy, -⟩ := of_decide_eq_true h2
      rw [hg] at hy
      exact Feedback.noConfusion hy)]
    refine List.countP_congr fun p _ => ?_
    cases hfb : feedback s g p <;> simp [hfb]
  have hg : posList.countP
      (fun p => decide (feedback s g p = Feedback.green ∧ g p = L))
      = greens s g L := by
    rw [greens]
    refine List.countP_congr fun p _ => ?_
    simp only [decide_eq_true_eq]
    rw [feedback_green_iff]
  have hcnt := passTwo_count g posList (missingAfterOne s g) (passOneFb s g)
    posList_nodup L
  have hy : posList.countP
      (fun p => decide (feedback s g p = Feedback.yellow ∧ g p = L))
      = posList.countP (fun p => decide (passOneFb s g p = Feedback.black
          ∧ (passTwo g posList (missingAfterOne s g) (passOneFb s g)).1 p
              = Feedback.yellow ∧ g p = L)) := by
    refine List.countP_congr fun p _ => ?_
    simp only [decide_eq_true_eq]
    constructor
    · rintro ⟨h1, h2⟩
      refine ⟨?_, h1, h2⟩
      rw [passOneFb_black_iff]
      intro he
      have hgr := (feedback_green_iff s g p).2 he
      rw [h1] at hgr
      exact Feedback.noConfusion hgr
    · rintro ⟨-, h1, h2⟩
      exact ⟨h1, h2⟩
  rw [hsplitP, hg, hy]
  have hmiss := missingAfterOne_eq s g L
  have hgle := greens_le s g L
  omega

end FeedbackOracle

section RestrictAnalysis

theorem incr_self (m : Letter → Nat) (l : Letter) : incr m l l = m l + 1 := by
  simp [incr]

theorem incr_other (m : Letter → Nat) (l x : Letter) (h : x ≠ l) :
    incr m l x = m x := by
  simp [incr, h]

/-- The local `min_count` tally accumulated by the restrict loop counts the
processed Green/Yellow positions per letter, and ignores the mask
entirely. -/
theorem restrictLoop_mc (w : Word) (fb : Fin 5 → Feedback) (l : List (Fin 5)) :
    ∀ (mask : Fin 5 → Finset Letter) (mc : Letter → Nat) (L : Letter),
      (restrictLoop w fb l mask mc).2 L
        = mc L + l.countP (fun p => decide (fb p ≠ Feedback.black ∧ w p = L)) := by
  induction l with
  | nil => intro mask mc L; simp [restrictLoop]
  | cons q rest ih =>
      intro mask mc L
      rw [List.countP_cons]
      cases hfb : fb q with
      | green =>
          simp only [restrictLoop, hfb]
          rw [ih]
          by_cases hL : w q = L
          · subst hL
            rw [incr_self,
              if_pos (decide_eq_true ⟨fun h => Feedback.noConfusion h, rfl⟩)]
            omega
          · rw [incr_other _ _ _ (fun he => hL he.symm),
              if_neg (fun hc => hL (of_decide_eq_true hc).2)]
            omega
      | yellow =>
          simp only [restrictLoop, hfb]
          rw [ih]
          by_cases hL : w q = L
          · subst hL
            rw [incr_self,
              if_pos (decide_eq_true ⟨fun h => Feedback.noConfusion h, rfl⟩)]
            omega
          · rw [incr_other _ _ _ (fun he => hL he.symm),
              if_neg (fun hc => hL (of_decide_eq_true hc).2)]
            omega
      | black =>
          simp only [restrictLoop, hfb]
          by_cases hpos : 0 < mc (w q)
          · rw [if_pos hpos, ih,
              if_neg (fun hc => (of_decide_eq_true hc).1 rfl)]
            omega
          · rw [if_neg hpos, ih,
              if_neg (fun hc => (of_decide_eq_true hc).1 rfl)]
            omega

/-- Main invariant for filter soundness: running the restrict loop on the
oracle feedback of guess `g` against secret `s` keeps the secret's letter in
every position's mask, provided the local tally describes the processed
positions and each already-broken position is a yet-unprocessed Green. -/
theorem restrictLoop_sound (s g : Word) :
    ∀ (l pre : List (Fin 5)), posList = pre ++ l →
    ∀ (mask : Fin 5 → Finset Letter) (mc : Letter → Nat),
    (∀ L, mc L = pre.countP
        (fun r => decide (feedback s g r ≠ Feedback.black ∧ g r = L))) →
    (∀ p, s p ∈ mask p ∨ (feedback s g p = Feedback.green ∧ p ∈ l)) →
    ∀ p, s p ∈ (restrictLoop g (feedback s g) l mask mc).1 p := by
  intro l
  induction l with
  | nil =>
      intro pre hsplit mask mc hmc hmask p
      rcases hmask p with h | h
      · exact h
      · exact absurd h.2 (List.not_mem_nil p)
  | cons q rest ih =>
      intro pre hsplit mask mc hmc hmask p
      have hsplit' : posList = (pre ++ [q]) ++ rest := by
        rw [List.append_assoc, List.singleton_append]
        exact hsplit
      cases hfbq : feedback s g q with
      | green =>
          simp only [restrictLoop, hfbq]
          refine ih (pre ++ [q]) hsplit' _ _ ?_ ?_ p
          · intro L
            rw [List.countP_append, ← hmc L]
            by_cases hL : g q = L
            · subst hL
              rw [incr_self]
              have h1 : [q].countP (fun r =>
                  decide (feedback s g r ≠ Feedback.black ∧ g r = g q)) = 1 := by
                simp [List.countP_cons, hfbq]
              rw [h1]
            · have h1 : incr mc (g q) L = mc L :=
                incr_other _ _ _ (fun he => hL he.symm)
              have h2 : [q].countP (fun r =>
                  decide (feedback s g r ≠ Feedback.black ∧ g r = L)) = 0 := by
                simp [List.countP_cons, hL]
              rw [h1, h2]
              omega
          · intro p'
            by_cases hpq : p' = q
            · subst hpq
              left
              rw [Function.update_same, Finset.mem_singleton]
              exact ((feedback_green_iff s g p').1 hfbq).symm
            · rw [Function.update_noteq hpq]
              rcases hmask p' with h | h
              · exact Or.inl h
              · refine Or.inr ⟨h.1, ?_⟩
                rcases List.mem_cons.1 h.2 with he | hm
                · exact absurd he hpq
                · exact hm
      | yellow =>
          simp only [restrictLoop, hfbq]
          refine ih (pre ++ [q]) hsplit' _ _ ?_ ?_ p
          · intro L
            rw [List.countP_append, ← hmc L]
            by_cases hL : g q = L
            · subst hL
              rw [incr_self]
              have h1 : [q].countP (fun r =>
                  decide (feedback s g r ≠ Feedback.black ∧ g r = g q)) = 1 := by
                simp [List.countP_cons, hfbq]
              rw [h1]
            · have h1 : incr mc (g q) L = mc L :=
                incr_other _ _ _ (fun he => hL he.symm)
              have h2 : [q].countP (fun r =>
                  decide (feedback s g r ≠ Feedback.black ∧ g r = L)) = 0 := by
                simp [List.countP_cons, hL]
              rw [h1, h2]
              omega
          · intro p'
            by_cases hpq : p' = q
            · subst hpq
              have hne : g p' ≠ s p' := by
                intro he
                have := (feedback_green_iff s g p').2 he
                rw [hfbq] at this
                exact Feedback.noConfusion this
              rcases hmask p' with h | h
              · left
                rw [Function.update_same]
                exact Finset.mem_erase.2 ⟨fun he => hne (he.symm), h⟩
              · rw [hfbq] at h
                exact absurd h.1 (fun hc => Feedback.noConfusion hc)
            · rw [Function.update_noteq hpq]
              rcases hmask p' with h | h
              · exact Or.inl h
              · refine Or.inr ⟨h.1, ?_⟩
                rcases List.mem_cons.1 h.2 with he | hm
                · exact absurd he hpq
                · exact hm
      | black =>
          simp only [restrictLoop, hfbq]
          have hmcq : ∀ L, mc L = (pre ++ [q]).countP
              (fun r => decide (feedback s g r ≠ Feedback.black ∧ g r = L)) := by
            intro L
            rw [List.countP_append, ← hmc L]
            have h2 : [q].countP (fun r =>
                decide (feedback s g r ≠ Feedback.black ∧ g r = L)) = 0 := by
              simp [List.countP_cons, hfbq]
            rw [h2]
            omega
          by_cases hpos : 0 < mc (g q)
          · rw [if_pos hpos]
            refine ih (pre ++ [q]) hsplit' _ _ hmcq ?_ p
            intro p'
            by_cases hpq : p' = q
            · subst hpq
              have hne : g p' ≠ s p' := by
                intro he
                have := (feedback_green_iff s g p').2 he
                rw [hfbq] at this
                exact Feedback.noConfusion this
              rcases hmask p' with h | h
              · left
                rw [Function.update_same]
                exact Finset.mem_erase.2 ⟨fun he => hne (he.symm), h⟩
              · rw [hfbq] at h
                exact absurd h.1 (fun hc => Feedback.noConfusion hc)
            · rw [Function.update_noteq hpq]
              rcases hmask p' with h | h
              · exact Or.inl h
              · refine Or.inr ⟨h.1, ?_⟩
                rcases List.mem_cons.1 h.2 with he | hm
                · exact absurd he hpq
                · exact hm
          · rw [if_neg hpos]
            have hmc0 : pre.countP (fun r =>
                decide (feedback s g r ≠ Feedback.black ∧ g r = g q)) = 0 := by
              have := hmc (g q)
              omega
            have hpreb : ∀ r ∈ pre, g r = g q →
                feedback s g r = Feedback.black := by
              intro r hr hgr
              by_contra hne
              exact (List.countP_eq_zero.1 hmc0 r hr)
                (decide_eq_true ⟨hne, hgr⟩)
            have hall := feedback_global_black s g hsplit hfbq hpreb
            refine ih (pre ++ [q]) hsplit' _ _ hmcq ?_ p
            intro p'
            by_cases hsp : s p' = g q
            · obtain ⟨hgr, hgp⟩ := hall p' hsp
              refine Or.inr ⟨hgr, ?_⟩
              have hne : p' ≠ q := by
                intro he
                rw [he, hfbq] at hgr
                exact Feedback.noConfusion hgr
              have hnpre : p' ∉ pre := by
                intro hp'
                have := hpreb p' hp' hgp
                rw [hgr] at this
                exact Feedback.noConfusion this
              have hmem : p' ∈ posList := mem_posList p'
              rw [hsplit] at hmem
              rcases List.mem_append.1 hmem with h | h
              · exact absurd h hnpre
              · rcases List.mem_cons.1 h with he | hm
                · exact absurd he hne
                · exact hm
            · rcases hmask p' with h | h
              · exact Or.inl (Finset.mem_erase.2 ⟨hsp, h⟩)
              · refine Or.inr ⟨h.1, ?_⟩
                rcases List.mem_cons.1 h.2 with he | hm
                · exfalso
                  rw [he, hfbq] at h
                  exact Feedback.noConfusion h.1
                · exact hm

theorem matches_iff (w : Word) (f : Filter) :
    w.matches f = true
      ↔ (∀ p, w p ∈ f.mask p) ∧ (∀ l, f.minCount l ≤ w.letterCount l) := by
  simp [Word.matches]

theorem matches_default (w : Word) : w.matches Filter.default = true := by
  rw [matches_iff]
  exact ⟨fun p => Finset.mem_univ _, fun l => Nat.zero_le _⟩

/-- Single-round soundness: a secret matching a filter still matches it
after restricting by its own oracle feedback for any guess. -/
theorem restrict_preserves (s g : Word) (f : Filter)
    (h : s.matches f = true) :
    s.matches (f.restrict g (feedback s g)) = true := by
  rw [matches_iff] at h ⊢
  obtain ⟨hmask, hmin⟩ := h
  constructor
  · intro p
    exact restrictLoop_sound s g posList [] rfl f.mask (fun _ => 0)
      (fun L => by simp) (fun p' => Or.inl (hmask p')) p
  · intro L
    show max (f.minCount L)
      ((restrictLoop g (feedback s g) posList f.mask (fun _ => 0)).2 L)
        ≤ s.letterCount L
    have h1 := restrictLoop_mc g (feedback s g) posList f.mask (fun _ => 0) L
    have h2 := feedback_nonblack_le s g L
    have h3 := hmin L
    omega

theorem foldl_restrict_sound (s : Word) (gs : List Word) :
    ∀ f : Filter, s.matches f = true →
      s.matches (gs.foldl (fun f' g' => f'.restrict g' (feedback s g')) f)
        = true := by
  induction gs with
  | nil => intro f h; exact h
  | cons g rest ih => intro f h; exact ih _ (restrict_preserves s g f h)

end RestrictAnalysis

section ConcreteWords

/-- The word "cider" (`c`=2, `i`=8, `d`=3, `e`=4, `r`=17). -/
def cider : Word := ![2, 8, 3, 4, 17]

/-- The word "speed" (`s`=18, `p`=15, `e`=4, `e`=4, `d`=3). -/
def speed : Word := ![18, 15, 4, 4, 3]

end ConcreteWords

/-- **C1**: soundness of the constraint filter. Whenever a round's feedback
is the one the simulation oracle computes for guess `g` against secret `s`,
`Filter.restrict` never excludes `s` from any filter that `s` matched
before; consequently, over any sequence of such rounds starting from the
default filter, the true secret always still matches. -/
theorem secret_never_excluded :
    (∀ (s g : Word) (f : Filter), s.matches f = true →
      s.matches (f.restrict g (feedback s g)) = true) ∧
    (∀ (s : Word) (gs : List Word),
      s.matches (gs.foldl (fun f g => f.restrict g (feedback s g))
        Filter.default) = true) :=
  ⟨restrict_preserves,
   fun s gs => foldl_restrict_sound s gs Filter.default (matches_default s)⟩

/-- Witness for C1: the secret "cider" still matches after restricting the
default filter by the oracle feedback of the guess "speed". -/
theorem secret_never_excluded_witness :
    Word.matches cider
      (Filter.default.restrict speed (feedback cider speed)) = true :=
  secret_never_excluded.1 cider speed Filter.default (by decide)



/-- **C5**: the simulation feedback oracle implements the official two-pass
rule. Pass 1 marks a position Green exactly when guess and secret agree
there; pass 2 visits the remaining Black positions in guess order and marks
Yellow exactly when the letter's remaining budget (secret occurrences minus
Green matches minus earlier same-round Yellows) is still positive, leaving
Black otherwise. -/
theorem feedback_two_pass (s g : Word) (q : Fin 5) :
    (feedback s g q = Feedback.green ↔ g q = s q) ∧
    (feedback s g q = Feedback.yellow ↔ g q ≠ s q ∧
      (preList q).countP (fun r => decide (g r ≠ s r ∧ g r = g q))
        < s.letterCount (g q) - greens s g (g q)) ∧
    (feedback s g q = Feedback.black ↔ g q ≠ s q ∧
      ¬((preList q).countP (fun r => decide (g r ≠ s r ∧ g r = g q))
        < s.letterCount (g q) - greens s g (g q))) := by
  have hg := feedback_green_iff s g q
  have hy := feedback_yellow_iff_split s g (posList_split q)
  refine ⟨hg, hy, ?_, ?_⟩
  · intro hb
    have h1 : g q ≠ s q := fun he => by
      have hgr := hg.2 he
      rw [hb] at hgr
      exact Feedback.noConfusion hgr
    refine ⟨h1, fun hlt => ?_⟩
    have hyl := hy.2 ⟨h1, hlt⟩
    rw [hb] at hyl
    exact Feedback.noConfusion hyl
  · rintro ⟨h1, h2⟩
    cases hfb : feedback s g q with
    | black => rfl
    | yellow => exact absurd (hy.1 hfb).2 h2
    | green => exact absurd (hg.1 hfb) h1

/-- **C10**: the feedback oracle returns the all-Green array exactly when
the guess equals the secret, so the solve loop's stopping condition fires
precisely on the secret. -/
theorem feedback_all_green_iff (s g : Word) :
    feedback s g = green5 ↔ g = s := by
  constructor
  · intro h
    funext p
    exact (feedback_green_iff s g p).1 (by rw [h]; rfl)
  · intro h
    subst h
    funext p
    exact (feedback_green_iff g g p).2 rfl

/-- **C2** counterexample: the oracle feedback of guess "speed" against
secret "cider" is not the `[Black, Black, Yellow, Black, Yellow]` array the
claim states — the claim overlooks that position 3 is an exact `e` match. -/
theorem feedback_cider_speed_ne_claimed :
    feedback cider speed
      ≠ ![Feedback.black, Feedback.black, Feedback.yellow, Feedback.black,
          Feedback.yellow] := by
  decide

/-- **C2** amended: guessing "speed" against secret "cider" yields
`[Black, Black, Black, Green, Yellow]` — position 3 (`e` vs `e`) is Green
and consumes the secret's single `e`, so the `e` at position 2 stays Black,
while the final `d` is Yellow. -/
theorem feedback_cider_speed_eq :
    feedback cider speed
      = ![Feedback.black, Feedback.black, Feedback.black, Feedback.green,
          Feedback.yellow] := by
  decide


section MonotonicityAndIdempotence

/-- The all-letters-`a` word used to build the C3 counterexample. -/
def allA : Word := ![0, 0, 0, 0, 0]

/-- All-Black feedback. -/
def black5 : Fin 5 → Feedback := fun _ => Feedback.black

/-- Feedback that is Green at position 0 and Black elsewhere. -/
def greenFirst : Fin 5 → Feedback :=
  ![Feedback.green, Feedback.black, Feedback.black, Feedback.black,
    Feedback.black]

/-- A filter reached from the default filter by one all-Black round for
"aaaaa": the letter `a` has been removed from every mask entry. -/
def filterNoA : Filter := Filter.default.restrict allA black5

/-- Any mask entry only shrinks under the restrict loop as long as every
Green position's guessed letter already belongs to the reference mask. -/
theorem restrictLoop_mono (w : Word) (fb : Fin 5 → Feedback)
    (mask0 : Fin 5 → Finset Letter) :
    ∀ (l : List (Fin 5)) (mask : Fin 5 → Finset Letter) (mc : Letter → Nat),
      (∀ p, mask p ⊆ mask0 p) →
      (∀ p ∈ l, fb p = Feedback.green → w p ∈ mask0 p) →
      ∀ p, (restrictLoop w fb l mask mc).1 p ⊆ mask0 p := by
  intro l
  induction l with
  | nil => intro mask mc hsub _ p; exact hsub p
  | cons q rest ih =>
      intro mask mc hsub hgr p
      have hgr' : ∀ r ∈ rest, fb r = Feedback.green → w r ∈ mask0 r :=
        fun r hr => hgr r (List.mem_cons_of_mem q hr)
      cases hfb : fb q with
      | green =>
          simp only [restrictLoop, hfb]
          refine ih _ _ ?_ hgr' p
          intro p'
          by_cases hpq : p' = q
          · subst hpq
            rw [Function.update_same, Finset.singleton_subset_iff]
            exact hgr p' (List.mem_cons_self p' rest) hfb
          · rw [Function.update_noteq hpq]
            exact hsub p'
      | yellow =>
          simp only [restrictLoop, hfb]
          refine ih _ _ ?_ hgr' p
          intro p'
          by_cases hpq : p' = q
          · subst hpq
            rw [Function.update_same]
            exact (Finset.erase_subset _ _).trans (hsub p')
          · rw [Function.update_noteq hpq]
            exact hsub p'
      | black =>
          simp only [restrictLoop, hfb]
          by_cases hpos : 0 < mc (w q)
          · simp only [if_pos hpos]
            refine ih _ _ ?_ hgr' p
            intro p'
            by_cases hpq : p' = q
            · subst hpq
              rw [Function.update_same]
              exact (Finset.erase_subset _ _).trans (hsub p')
            · rw [Function.update_noteq hpq]
              exact hsub p'
          · simp only [if_neg hpos]
            refine ih _ _ ?_ hgr' p
            intro p'
            exact (Finset.erase_subset _ _).trans (hsub p')

end MonotonicityAndIdempotence

/-- **C3** counterexample: a single `restrict` call with arbitrary arguments
can *grow* a mask entry. Starting from the reachable filter whose masks all
lack `a` (default filter restricted by an all-Black round for "aaaaa"),
restricting with "aaaaa" and a Green at position 0 rewrites `mask[0]` to the
singleton `{a}`, which is not a subset of the previous entry. -/
theorem restrict_mask_can_grow :
    ¬ ((filterNoA.restrict allA greenFirst).mask 0 ⊆ filterNoA.mask 0) := by
  decide

/-- **C3** amended: under a single `restrict(word, feedback)` call every
`min_count` entry is still ≥ its previous value (max-merge), and every mask
entry is a subset of its previous value *provided* each Green position's
guessed letter already belongs to that position's mask — the Green branch
overwrites `mask[pos]` with `{letter}`, which the counterexample shows can
otherwise add a letter back. -/
theorem restrict_mono_amended (f : Filter) (w : Word) (fb : Fin 5 → Feedback) :
    (∀ L, f.minCount L ≤ (f.restrict w fb).minCount L) ∧
    ((∀ p, fb p = Feedback.green → w p ∈ f.mask p) →
      ∀ p, (f.restrict w fb).mask p ⊆ f.mask p) :=
  ⟨fun _ => Nat.le_max_left _ _,
   fun hgreen =>
     restrictLoop_mono w fb f.mask posList f.mask (fun _ => 0)
       (fun _ => Finset.Subset.refl _) (fun p _ => hgreen p)⟩

/-- Witness for the amended C3 at a concrete instance: an all-Green round
for "cider" on the default filter. -/
theorem restrict_mono_amended_witness :
    (∀ L, Filter.default.minCount L
        ≤ (Filter.default.restrict cider green5).minCount L) ∧
    (∀ p, (Filter.default.restrict cider green5).mask p
        ⊆ Filter.default.mask p) :=
  ⟨(restrict_mono_amended Filter.default cider green5).1,
   (restrict_mono_amended Filter.default cider green5).2 (by decide)⟩

/-- **C4**: the Black branch of the restrict loop. At a Black position `p`
carrying letter `L`: if the running same-round tally for `L` is positive
(an earlier Green/Yellow of this guess already accounted for an occurrence
of `L`), only `mask[p]` loses `L`; if the tally is zero, every position's
mask loses `L`. The third conjunct identifies the running tally (started at
zero) with the number of already-processed Green/Yellow positions carrying
each letter. -/
theorem restrict_black_cases (w : Word) (fb : Fin 5 → Feedback) (p : Fin 5)
    (hb : fb p = Feedback.black) :
    (∀ (suf : List (Fin 5)) (mask : Fin 5 → Finset Letter)
        (mc : Letter → Nat), 0 < mc (w p) →
      restrictLoop w fb (p :: suf) mask mc
        = restrictLoop w fb suf
            (Function.update mask p ((mask p).erase (w p))) mc) ∧
    (∀ (suf : List (Fin 5)) (mask : Fin 5 → Finset Letter)
        (mc : Letter → Nat), mc (w p) = 0 →
      restrictLoop w fb (p :: suf) mask mc
        = restrictLoop w fb suf (fun q => (mask q).erase (w p)) mc) ∧
    (∀ (pre : List (Fin 5)) (mask : Fin 5 → Finset Letter) (L : Letter),
      (restrictLoop w fb pre mask (fun _ => 0)).2 L
        = pre.countP (fun r => decide (fb r ≠ Feedback.black ∧ w r = L))) := by
  refine ⟨?_, ?_, ?_⟩
  · intro suf mask mc h
    simp only [restrictLoop, hb]
    rw [if_pos h]
  · intro suf mask mc h
    simp only [restrictLoop, hb]
    rw [if_neg (by omega)]
  · intro pre mask L
    have h := restrictLoop_mc w fb pre mask (fun _ => 0) L
    simpa using h

/-- Witness for C4: all-Black feedback for "speed" with a zero tally erases
the guessed letter from every mask entry of the default mask array. -/
theorem restrict_black_cases_witness :
    restrictLoop speed black5 [0] (fun _ => Finset.univ) (fun _ => 0)
      = restrictLoop speed black5 []
          (fun q => ((fun _ => Finset.univ : Fin 5 → Finset Letter) q).erase
            (speed 0)) (fun _ => 0) :=
  (restrict_black_cases speed black5 0 rfl).2.1 []
    (fun _ => Finset.univ) (fun _ => 0) rfl

/-- Each final mask entry of the restrict loop is, uniformly in the input
mask, either a constant set or the input entry minus a fixed erased set;
which of the two (and the sets themselves) depends only on the word, the
feedback and the tally. -/
theorem restrictLoop_shape (w : Word) (fb : Fin 5 → Feedback) :
    ∀ (l : List (Fin 5)) (mc : Letter → Nat) (p : Fin 5),
      (∃ C : Finset Letter, ∀ mask, (restrictLoop w fb l mask mc).1 p = C) ∨
      (∃ S : Finset Letter, ∀ mask,
        (restrictLoop w fb l mask mc).1 p = mask p \ S) := by
  intro l
  induction l with
  | nil =>
      intro mc p
      exact Or.inr ⟨∅, fun mask => by simp [restrictLoop]⟩
  | cons q rest ih =>
      intro mc p
      cases hfb : fb q with
      | green =>
          simp only [restrictLoop, hfb]
          rcases ih (incr mc (w q)) p with ⟨C, hC⟩ | ⟨S, hS⟩
          · exact Or.inl ⟨C, fun mask => hC _⟩
          · by_cases hpq : p = q
            · subst hpq
              exact Or.inl ⟨{w p} \ S, fun mask => by
                rw [hS, Function.update_same]⟩
            · exact Or.inr ⟨S, fun mask => by
                rw [hS, Function.update_noteq hpq]⟩
      | yellow =>
          simp only [restrictLoop, hfb]
          rcases ih (incr mc (w q)) p with ⟨C, hC⟩ | ⟨S, hS⟩
          · exact Or.inl ⟨C, fun mask => hC _⟩
          · by_cases hpq : p = q
            · subst hpq
              refine Or.inr ⟨insert (w p) S, fun mask => by
                rw [hS, Function.update_same, Finset.erase_eq,
                  sdiff_sdiff_left, Finset.insert_eq, Finset.sup_eq_union]⟩
            · exact Or.inr ⟨S, fun mask => by
                rw [hS, Function.update_noteq hpq]⟩
      | black =>
          simp only [restrictLoop, hfb]
          by_cases hpos : 0 < mc (w q)
          · simp only [if_pos hpos]
            rcases ih mc p with ⟨C, hC⟩ | ⟨S, hS⟩
            · exact Or.inl ⟨C, fun mask => hC _⟩
            · by_cases hpq : p = q
              · subst hpq
                refine Or.inr ⟨insert (w p) S, fun mask => by
                  rw [hS, Function.update_same, Finset.erase_eq,
                    sdiff_sdiff_left, Finset.insert_eq, Finset.sup_eq_union]⟩
              · exact Or.inr ⟨S, fun mask => by
                  rw [hS, Function.update_noteq hpq]⟩
          · simp only [if_neg hpos]
            rcases ih mc p with ⟨C, hC⟩ | ⟨S, hS⟩
            · exact Or.inl ⟨C, fun mask => hC _⟩
            · refine Or.inr ⟨insert (w q) S, fun mask => by
                rw [hS, Finset.erase_eq, sdiff_sdiff_left, Finset.insert_eq,
                  Finset.sup_eq_union]⟩

/-- **C8**: applying `restrict` twice with the same word and feedback yields
the same filter (mask array and `min_count` map) as applying it once: the
mask updates are overwrites and erasures that are idempotent under
repetition, and the max-merge of an identical local tally is idempotent. -/
theorem restrict_idempotent (f : Filter) (w : Word) (fb : Fin 5 → Feedback) :
    (f.restrict w fb).restrict w fb = f.restrict w fb := by
  apply Filter.ext
  · funext p
    show (restrictLoop w fb posList
        (restrictLoop w fb posList f.mask (fun _ => 0)).1 (fun _ => 0)).1 p
      = (restrictLoop w fb posList f.mask (fun _ => 0)).1 p
    rcases restrictLoop_shape w fb posList (fun _ => 0) p with ⟨C, hC⟩ | ⟨S, hS⟩
    · rw [hC, hC]
    · rw [hS, hS, sdiff_idem]
  · funext L
    show max ((f.restrict w fb).minCount L)
        ((restrictLoop w fb posList (f.restrict w fb).mask (fun _ => 0)).2 L)
      = max (f.minCount L) ((restrictLoop w fb posList f.mask (fun _ => 0)).2 L)
    have h1 : (restrictLoop w fb posList f.mask (fun _ => 0)).2 L
        = posList.countP (fun p => decide (fb p ≠ Feedback.black ∧ w p = L)) := by
      simpa using restrictLoop_mc w fb posList f.mask (fun _ => 0) L
    have h2 : (restrictLoop w fb posList (f.restrict w fb).mask
        (fun _ => 0)).2 L
        = posList.countP (fun p => decide (fb p ≠ Feedback.black ∧ w p = L)) := by
      simpa using restrictLoop_mc w fb posList (f.restrict w fb).mask
        (fun _ => 0) L
    show max (max (f.minCount L)
        ((restrictLoop w fb posList f.mask (fun _ => 0)).2 L)) _ = _
    rw [h1, h2, max_assoc, max_self]


section Stats

/-- The set of distinct letters of a word (Rust `LetterSet::from(word)`). -/
def wordLetters (w : Word) : Finset Letter := Finset.image w Finset.univ

/-- Rust `struct LetterStats`: the candidate-pool size and the 26×26
co-occurrence table. -/
structure LetterStats : Type where
  total : Nat
  counts : Letter → Letter → Nat

/-- One step of Rust `FromIterator for LetterStats`: count a word into the
statistics (increment `total`, and the counter of every letter pair that
occurs in the word — the source's nested loop over the word's letter set
touches exactly those pairs once). -/
def LetterStats.addWord (st : LetterStats) (w : Word) : LetterStats :=
  { total := st.total + 1,
    counts := fun x y =>
      if x ∈ wordLetters w ∧ y ∈ wordLetters w then st.counts x y + 1
      else st.counts x y }

/-- Rust `FromIterator for LetterStats`: fold the words of the pool into
empty statistics. -/
def LetterStats.fromList (l : List Word) : LetterStats :=
  l.foldl LetterStats.addWord ⟨0, fun _ _ => 0⟩

/-- Rust `LetterStats::remove_word`: decrement `total` and the counter of
every letter pair occurring in the word. -/
def LetterStats.removeWord (st : LetterStats) (w : Word) : LetterStats :=
  { total := st.total - 1,
    counts := fun x y =>
      if x ∈ wordLetters w ∧ y ∈ wordLetters w then st.counts x y - 1
      else st.counts x y }

/-- Rust `LetterStats::relevance`: sum, over the distinct letters of the
word, of `total - |counts[x][x] - total/2|` (`u32::abs_diff` is
`Nat.dist`). -/
def LetterStats.relevance (st : LetterStats) (w : Word) : Nat :=
  (wordLetters w).sum
    (fun x => st.total - Nat.dist (st.counts x x) (st.total / 2))

theorem addFold_total (l : List Word) :
    ∀ st : LetterStats, (l.foldl LetterStats.addWord st).total
      = st.total + l.length := by
  induction l with
  | nil => intro st; simp
  | cons w rest ih =>
      intro st
      rw [List.foldl_cons, ih]
      show st.total + 1 + rest.length = st.total + (rest.length + 1)
      omega

theorem addFold_counts (l : List Word) :
    ∀ (st : LetterStats) (x y : Letter),
      (l.foldl LetterStats.addWord st).counts x y
        = st.counts x y + l.countP
            (fun v => decide (x ∈ wordLetters v ∧ y ∈ wordLetters v)) := by
  induction l with
  | nil => intro st x y; simp
  | cons w rest ih =>
      intro st x y
      rw [List.foldl_cons, ih, List.countP_cons]
      by_cases hm : x ∈ wordLetters w ∧ y ∈ wordLetters w
      · rw [if_pos (decide_eq_true hm)]
        show (if x ∈ wordLetters w ∧ y ∈ wordLetters w
            then st.counts x y + 1 else st.counts x y) + _ = _
        rw [if_pos hm]
        omega
      · rw [if_neg (fun hc => hm (of_decide_eq_true hc))]
        show (if x ∈ wordLetters w ∧ y ∈ wordLetters w
            then st.counts x y + 1 else st.counts x y) + _ = _
        rw [if_neg hm]
        omega

theorem removeFold_total (l : List Word) :
    ∀ st : LetterStats, (l.foldl LetterStats.removeWord st).total
      = st.total - l.length := by
  induction l with
  | nil => intro st; simp
  | cons w rest ih =>
      intro st
      rw [List.foldl_cons, ih]
      show st.total - 1 - rest.length = st.total - (rest.length + 1)
      omega

theorem removeFold_counts (l : List Word) :
    ∀ (st : LetterStats) (x y : Letter),
      (l.foldl LetterStats.removeWord st).counts x y
        = st.counts x y - l.countP
            (fun v => decide (x ∈ wordLetters v ∧ y ∈ wordLetters v)) := by
  induction l with
  | nil => intro st x y; simp
  | cons w rest ih =>
      intro st x y
      rw [List.foldl_cons, ih, List.countP_cons]
      by_cases hm : x ∈ wordLetters w ∧ y ∈ wordLetters w
      · rw [if_pos (decide_eq_true hm)]
        show (if x ∈ wordLetters w ∧ y ∈ wordLetters w
            then st.counts x y - 1 else st.counts x y) - _ = _
        rw [if_pos hm]
        omega
      · rw [if_neg (fun hc => hm (of_decide_eq_true hc))]
        show (if x ∈ wordLetters w ∧ y ∈ wordLetters w
            then st.counts x y - 1 else st.counts x y) - _ = _
        rw [if_neg hm]
        omega

end Stats

/-- **C6**: LetterStats bookkeeping. Starting from statistics built over a
pool `l`, after removing any sub-multiset `rem` of the pool (each removed
word was currently counted), `total` equals the initial total minus the
number of removals — exactly, without truncation (second conjunct) — and
every diagonal entry `counts[x][x]` equals the number of remaining pool
words containing `x`. -/
theorem letterStats_bookkeeping (l rem rest : List Word)
    (h : l.Perm (rem ++ rest)) :
    ((rem.foldl LetterStats.removeWord (LetterStats.fromList l)).total
        = (LetterStats.fromList l).total - rem.length) ∧
    ((rem.foldl LetterStats.removeWord (LetterStats.fromList l)).total
        + rem.length = (LetterStats.fromList l).total) ∧
    (∀ x : Letter,
      (rem.foldl LetterStats.removeWord (LetterStats.fromList l)).counts x x
        = rest.countP (fun v => decide (x ∈ wordLetters v))) := by
  have htot : (LetterStats.fromList l).total = l.length := by
    simpa using addFold_total l ⟨0, fun _ _ => 0⟩
  have hlen : l.length = rem.length + rest.length := by
    rw [h.length_eq, List.length_append]
  refine ⟨removeFold_total rem _, ?_, ?_⟩
  · rw [removeFold_total rem _, htot]
    omega
  · intro x
    rw [removeFold_counts rem _ x x]
    have hc : (LetterStats.fromList l).counts x x
        = l.countP (fun v => decide (x ∈ wordLetters v ∧ x ∈ wordLetters v)) := by
      simpa using addFold_counts l ⟨0, fun _ _ => 0⟩ x x
    have hperm := List.Perm.countP_eq
      (fun v => decide (x ∈ wordLetters v ∧ x ∈ wordLetters v)) h
    rw [List.countP_append] at hperm
    have hcongr : rest.countP
        (fun v => decide (x ∈ wordLetters v ∧ x ∈ wordLetters v))
        = rest.countP (fun v => decide (x ∈ wordLetters v)) :=
      List.countP_congr (fun v _ => by simp)
    rw [hc, hperm]
    omega

/-- Witness for C6: the pool `[cider, speed]` with "cider" removed. -/
theorem letterStats_bookkeeping_witness :
    (([cider].foldl LetterStats.removeWord
        (LetterStats.fromList [cider, speed])).total
        = (LetterStats.fromList [cider, speed]).total - [cider].length) ∧
    (([cider].foldl LetterStats.removeWord
        (LetterStats.fromList [cider, speed])).total + [cider].length
        = (LetterStats.fromList [cider, speed]).total) ∧
    (∀ x : Letter,
      ([cider].foldl LetterStats.removeWord
          (LetterStats.fromList [cider, speed])).counts x x
        = [speed].countP (fun v => decide (x ∈ wordLetters v))) :=
  letterStats_bookkeeping [cider, speed] [cider] [speed] (List.Perm.refl _)

/-- Casting `Nat.dist` (Rust `u32::abs_diff`) to the integers gives the
absolute difference. -/
theorem cast_dist (a b : Nat) : ((Nat.dist a b : Nat) : Int)
    = |(a : Int) - (b : Int)| := by
  rcases le_total a b with hab | hab
  · rw [Nat.dist_eq_sub_of_le hab, Nat.cast_sub hab, abs_sub_comm,
      abs_of_nonneg (sub_nonneg.2 (Nat.cast_le.2 hab))]
  · rw [Nat.dist_eq_sub_of_le_right hab, Nat.cast_sub hab,
      abs_of_nonneg (sub_nonneg.2 (Nat.cast_le.2 hab))]

/-- **C7**: relevance scoring. For statistics whose diagonal entries are
bounded by `total`, `relevance(w)` equals (as an integer) the sum over the
distinct letters `x` of `w` of `total - |counts[x][x] - total/2|` with
integer division by 2, and no per-letter term underflows the `u32`
subtraction. -/
theorem relevance_spec (st : LetterStats) (w : Word)
    (h : ∀ x, st.counts x x ≤ st.total) :
    ((st.relevance w : Int)
        = (wordLetters w).sum (fun x => (st.total : Int)
            - |(st.counts x x : Int) - ((st.total / 2 : Nat) : Int)|)) ∧
    (∀ x ∈ wordLetters w,
      Nat.dist (st.counts x x) (st.total / 2) ≤ st.total) := by
  have hterm : ∀ x, Nat.dist (st.counts x x) (st.total / 2) ≤ st.total := by
    intro x
    have h1 := h x
    have h2 : st.total / 2 ≤ st.total := Nat.div_le_self _ _
    simp only [Nat.dist]
    omega
  constructor
  · rw [LetterStats.relevance, Nat.cast_sum]
    refine Finset.sum_congr rfl (fun x _ => ?_)
    rw [Nat.cast_sub (hterm x), cast_dist]
  · exact fun x _ => hterm x

/-- Witness for C7 on concrete statistics over the pool `[cider, speed]`. -/
theorem relevance_spec_witness :
    (((LetterStats.fromList [cider, speed]).relevance speed : Int)
        = (wordLetters speed).sum
            (fun x => ((LetterStats.fromList [cider, speed]).total : Int)
              - |((LetterStats.fromList [cider, speed]).counts x x : Int)
                  - (((LetterStats.fromList [cider, speed]).total / 2 : Nat)
                      : Int)|)) ∧
    (∀ x ∈ wordLetters speed,
      Nat.dist ((LetterStats.fromList [cider, speed]).counts x x)
          ((LetterStats.fromList [cider, speed]).total / 2)
        ≤ (LetterStats.fromList [cider, speed]).total) :=
  relevance_spec (LetterStats.fromList [cider, speed]) speed (by decide)


section GameSim

/-- Rust `struct Game`: the candidate pool, the accumulated filter and the
statistics kept in sync with the pool. -/
structure Game : Type where
  list : List Word
  filter : Filter
  stats : LetterStats

/-- Rust `Game::suggested_word` (`k_largest_by_key(1).next()`): a candidate
with the largest relevance score, `none` on an empty pool. The source's
choice among equally scored candidates is unspecified; it is modelled as
the first maximal element. -/
def Game.suggestedWord (game : Game) : Option Word :=
  game.list.argmax (fun w => game.stats.relevance w)

/-- Rust `Game::apply_feedback`: tighten the filter, retain only matching
candidates, and decrement the statistics once for every dropped
candidate. -/
def Game.applyFeedback (game : Game) (w : Word) (fb : Fin 5 → Feedback) :
    Game :=
  { list := game.list.filter (fun v => v.matches (game.filter.restrict w fb)),
    filter := game.filter.restrict w fb,
    stats := (game.list.filter
        (fun v => !(v.matches (game.filter.restrict w fb)))).foldl
      LetterStats.removeWord game.stats }

/-- Positions other than those in the processed list never regain letters:
the loop only erases there. -/
theorem restrictLoop_no_insert (w : Word) (fb : Fin 5 → Feedback) :
    ∀ (l : List (Fin 5)) (mask : Fin 5 → Finset Letter) (mc : Letter → Nat)
      (p : Fin 5) (x : Letter), p ∉ l → x ∉ mask p →
      x ∉ (restrictLoop w fb l mask mc).1 p := by
  intro l
  induction l with
  | nil => intro mask mc p x _ hx; exact hx
  | cons q rest ih =>
      intro mask mc p x hp hx
      have hpq : p ≠ q := fun h => hp (h ▸ List.mem_cons_self q rest)
      have hpr : p ∉ rest := fun h => hp (List.mem_cons_of_mem q h)
      cases hfb : fb q with
      | green =>
          simp only [restrictLoop, hfb]
          exact ih _ _ p x hpr (by rw [Function.update_noteq hpq]; exact hx)
      | yellow =>
          simp only [restrictLoop, hfb]
          exact ih _ _ p x hpr (by rw [Function.update_noteq hpq]; exact hx)
      | black =>
          simp only [restrictLoop, hfb]
          by_cases hpos : 0 < mc (w q)
          · simp only [if_pos hpos]
            exact ih _ _ p x hpr (by rw [Function.update_noteq hpq]; exact hx)
          · simp only [if_neg hpos]
            exact ih _ _ p x hpr
              (fun hc => hx (Finset.mem_of_mem_erase hc))

/-- After the loop has processed a non-Green position, the guessed letter is
gone from that position's mask for good. -/
theorem restrictLoop_excludes (w : Word) (fb : Fin 5 → Feedback) :
    ∀ (l : List (Fin 5)) (mask : Fin 5 → Finset Letter) (mc : Letter → Nat)
      (p : Fin 5), p ∈ l → l.Nodup → fb p ≠ Feedback.green →
      w p ∉ (restrictLoop w fb l mask mc).1 p := by
  intro l
  induction l with
  | nil => intro mask mc p hp; exact absurd hp (List.not_mem_nil p)
  | cons q rest ih =>
      intro mask mc p hp hnd hgr
      have hqrest : q ∉ rest := (List.nodup_cons.1 hnd).1
      have hndr : rest.Nodup := (List.nodup_cons.1 hnd).2
      rcases List.mem_cons.1 hp with rfl | hpr
      · cases hfb : fb p with
        | green => exact absurd hfb hgr
        | yellow =>
            simp only [restrictLoop, hfb]
            exact restrictLoop_no_insert w fb rest _ _ p (w p) hqrest
              (by rw [Function.update_same]; exact Finset.not_mem_erase _ _)
        | black =>
            simp only [restrictLoop, hfb]
            by_cases hpos : 0 < mc (w p)
            · simp only [if_pos hpos]
              exact restrictLoop_no_insert w fb rest _ _ p (w p) hqrest
                (by rw [Function.update_same]; exact Finset.not_mem_erase _ _)
            · simp only [if_neg hpos]
              exact restrictLoop_no_insert w fb rest _ _ p (w p) hqrest
                (Finset.not_mem_erase _ _)
      · cases hfb : fb q with
        | green =>
            simp only [restrictLoop, hfb]
            exact ih _ _ p hpr hndr hgr
        | yellow =>
            simp only [restrictLoop, hfb]
            exact ih _ _ p hpr hndr hgr
        | black =>
            simp only [restrictLoop, hfb]
            by_cases hpos : 0 < mc (w q)
            · simp only [if_pos hpos]
              exact ih _ _ p hpr hndr hgr
            · simp only [if_neg hpos]
              exact ih _ _ p hpr hndr hgr

/-- A guess with any non-Green position no longer matches the filter
restricted by its own round. -/
theorem matches_restrict_false (g : Word) (fb : Fin 5 → Feedback)
    (f : Filter) (p : Fin 5) (hp : fb p ≠ Feedback.green) :
    g.matches (f.restrict g fb) = false := by
  have hnot := restrictLoop_excludes g fb posList f.mask (fun _ => 0) p
    (mem_posList p) posList_nodup hp
  cases hb : Word.matches g (f.restrict g fb) with
  | false => rfl
  | true =>
      exfalso
      exact hnot (((matches_iff g _).1 hb).1 p)

theorem ne_green5_exists (fb : Fin 5 → Feedback) (h : fb ≠ green5) :
    ∃ p, fb p ≠ Feedback.green := by
  by_contra hc
  push_neg at hc
  exact h (funext fun p => hc p)

/-- The candidate pool strictly shrinks on any round whose feedback is not
all Green, provided the guess was taken from the pool. -/
theorem applyFeedback_shrinks (game : Game) (g : Word)
    (fb : Fin 5 → Feedback) (hg : g ∈ game.list) (p : Fin 5)
    (hp : fb p ≠ Feedback.green) :
    (game.applyFeedback g fb).list.length < game.list.length := by
  show (game.list.filter
      (fun v => v.matches (game.filter.restrict g fb))).length
    < game.list.length
  rw [List.length_filter_lt_length_iff_exists]
  refine ⟨g, hg, fun hc => ?_⟩
  rw [matches_restrict_false g fb game.filter p hp] at hc
  exact Bool.noConfusion hc

theorem suggestedWord_mem {game : Game} {g : Word}
    (h : game.suggestedWord = some g) : g ∈ game.list :=
  List.argmax_mem (Option.mem_def.2 h)

/-- Rust `Simulation::run` with the lazy iterator realised as a list. The
fuel argument bounds the number of rounds; `runSim` supplies
`|candidates| + 1`, which `applyFeedback_shrinks` proves is never
exhausted. An `Except.error` element models the `Err("unknown word …")`
the iterator yields — and stops after — when `suggested_word()` returns
`None`; an all-Green round is yielded and ends the stream
(`take_while_inclusive`). -/
def runSimAux (s : Word) :
    Nat → Game → List (Except Word (Word × (Fin 5 → Feedback)))
  | 0, _ => []
  | n + 1, game =>
    match game.suggestedWord with
    | none => [Except.error s]
    | some g =>
      if feedback s g = green5 then [Except.ok (g, feedback s g)]
      else Except.ok (g, feedback s g)
        :: runSimAux s n (game.applyFeedback g (feedback s g))

/-- Rust `Simulation::run` on a game state. -/
def runSim (s : Word) (game : Game) :
    List (Except Word (Word × (Fin 5 → Feedback))) :=
  runSimAux s (game.list.length + 1) game

theorem runSimAux_spec (s : Word) :
    ∀ (n : Nat) (game : Game), game.list.length < n →
      (runSimAux s n game ≠ [] ∧
       (∀ (i : Nat) (e : Except Word (Word × (Fin 5 → Feedback))),
          i + 1 < (runSimAux s n game).length →
          (runSimAux s n game)[i]? = some e →
          ∃ g fb, e = Except.ok (g, fb) ∧ fb ≠ green5) ∧
       (∀ e, (runSimAux s n game).getLast? = some e →
          (∃ g, e = Except.ok (g, green5)) ∨ e = Except.error s)) := by
  intro n
  induction n with
  | zero => intro game h; exact absurd h (Nat.not_lt_zero _)
  | succ n ih =>
      intro game hlen
      cases hsw : game.suggestedWord with
      | none =>
          have hrun : runSimAux s (n + 1) game = [Except.error s] := by
            simp [runSimAux, hsw]
          rw [hrun]
          refine ⟨by simp, ?_, ?_⟩
          · intro i e hi
            simp at hi
          · intro e he
            simp at he
            exact Or.inr he.symm
      | some g =>
          by_cases hfb : feedback s g = green5
          · have hrun : runSimAux s (n + 1) game
                = [Except.ok (g, feedback s g)] := by
              simp [runSimAux, hsw, hfb]
            rw [hrun]
            refine ⟨by simp, ?_, ?_⟩
            · intro i e hi
              simp at hi
            · intro e he
              simp at he
              exact Or.inl ⟨g, by rw [← he, hfb]⟩
          · have hlt : (game.applyFeedback g (feedback s g)).list.length
                < game.list.length := by
              obtain ⟨p, hp⟩ := ne_green5_exists _ hfb
              exact applyFeedback_shrinks game g (feedback s g)
                (suggestedWord_mem hsw) p hp
            obtain ⟨ih1, ih2, ih3⟩ :=
              ih (game.applyFeedback g (feedback s g)) (by omega)
            have hrun : runSimAux s (n + 1) game
                = Except.ok (g, feedback s g)
                  :: runSimAux s n (game.applyFeedback g (feedback s g)) := by
              simp [runSimAux, hsw, hfb]
            rw [hrun]
            refine ⟨by simp, ?_, ?_⟩
            · intro i e hi hget
              cases i with
              | zero =>
                  rw [List.getElem?_cons_zero] at hget
                  exact ⟨g, feedback s g,
                    (Option.some_inj.1 hget).symm, hfb⟩
              | succ j =>
                  rw [List.getElem?_cons_succ] at hget
                  rw [List.length_cons] at hi
                  exact ih2 j e (by omega) hget
            · intro e he
              obtain ⟨b, t', ht⟩ := List.exists_cons_of_ne_nil ih1
              rw [ht, List.getLast?_cons_cons] at he
              exact ih3 e (by rw [ht]; exact he)

end GameSim

/-- **C9**: the simulation loop produces a non-empty finite list of rounds:
every non-final element is an `Ok` round with non-all-Green feedback (so
nothing follows the terminal round and errors only end the stream), and the
final element is either an `Ok` round whose feedback is all Green or the
distinct error element carrying the unknown secret, produced when
`suggested_word()` returns `None` before an all-Green round. -/
theorem runSim_spec (s : Word) (game : Game) :
    runSim s game ≠ [] ∧
    (∀ (i : Nat) (e : Except Word (Word × (Fin 5 → Feedback))),
        i + 1 < (runSim s game).length →
        (runSim s game)[i]? = some e →
        ∃ g fb, e = Except.ok (g, fb) ∧ fb ≠ green5) ∧
    (∀ e, (runSim s game).getLast? = some e →
        (∃ g, e = Except.ok (g, green5)) ∨ e = Except.error s) :=
  runSimAux_spec s (game.list.length + 1) game (Nat.lt_succ_self _)

/-- Witness for C9 on a concrete two-word game. -/
theorem runSim_spec_witness :
    runSim speed
      (Game.mk [cider, speed] Filter.default
        (LetterStats.fromList [cider, speed])) ≠ [] :=
  (runSim_spec speed
    (Game.mk [cider, speed] Filter.default
      (LetterStats.fromList [cider, speed]))).1

end Wordle
